import Mathlib

/-!
Verification of the `fibs` crate: a generic Fibonacci library exposing a
stateful iterator (`Fibonacci<T>` with `Iterator::next`) and a one-shot
indexed accessor (`Fibonacci::f`).

The generic numeric type `T` (bounded by `Zero + One + CheckedAdd`) is
modelled as the natural numbers equipped with a capacity `cap`: values are
the naturals `≤ cap`, `zero = 0`, `one = 1`, and `checked_add` succeeds
exactly when the exact sum is `≤ cap`. This is the semantics of the `num`
crate's capabilities on every fixed-width integer type (for a `w`-bit
unsigned type, `cap = 2^w - 1`; for a signed one, `cap = 2^(w-1) - 1`,
since the generator only ever stores non-negative values).

Rust panics (`zero_failed` and the two `last.unwrap()` calls inside `f`)
are modelled explicitly by the `FResult.panicked` constructor.
-/

/-- The standard Fibonacci sequence 0, 1, 1, 2, 3, 5, 8, ...
computed linearly via the pair `(fib n, fib (n+1))` so that concrete
instances reduce quickly. -/
def fibPair : Nat → Nat × Nat
  | 0 => (0, 1)
  | n + 1 => ((fibPair n).2, (fibPair n).1 + (fibPair n).2)

/-- `fib n` is the n-th term of the standard Fibonacci sequence. -/
def fib (n : Nat) : Nat := (fibPair n).1

/-- `checked_add` of the `num` crate on a type whose largest value is `cap`:
the exact sum when it is representable, `none` on overflow. -/
def checked_add (cap x y : Nat) : Option Nat :=
  if x + y ≤ cap then some (x + y) else none

/-- The `Fibonacci<T>` struct from `src/lib.rs`: two optional slots. -/
structure Fibonacci where
  previous : Option Nat
  current : Option Nat
deriving DecidableEq, Repr

namespace Fibonacci

/-- `Default::default()` for `Fibonacci<T>`: both fields `None`. -/
def default : Fibonacci := ⟨none, none⟩

/-- `Fibonacci::has_overflowed`: no current number but a previous one. -/
def has_overflowed (s : Fibonacci) : Bool :=
  s.current.isNone && s.previous.isSome

/-- `<Fibonacci<T> as Iterator>::next`, returning the emitted value and the
updated state. Mirrors the source: if `has_overflowed`, return `None` and
leave the state alone; otherwise emit `current` (or `zero` on the first
call), set `previous` to the emitted value and `current` to the checked sum
of the emitted value and the old `previous` (or `one` when absent). -/
def next (cap : Nat) (s : Fibonacci) : Option Nat × Fibonacci :=
  if s.has_overflowed then (none, s)
  else
    let current := s.current.getD 0
    let nxt := checked_add cap current (s.previous.getD 1)
    (some current, ⟨some current, nxt⟩)

/-- The state reached from `s` after `k` calls to `next`. -/
def stateFrom (cap : Nat) (s : Fibonacci) : Nat → Fibonacci
  | 0 => s
  | k + 1 => (next cap (stateFrom cap s k)).2

/-- The state of a freshly constructed generator after `k` calls. -/
def stateN (cap k : Nat) : Fibonacci := stateFrom cap default k

/-- The value returned by the `(k+1)`-th call to `next` on a freshly
constructed generator. -/
def outN (cap k : Nat) : Option Nat := (next cap (stateN cap k)).1

/-- The list of the first `n` values returned by a fresh generator. -/
def outputs (cap n : Nat) : List (Option Nat) := (List.range n).map (outN cap)

end Fibonacci

/-- The possible outcomes of `Fibonacci::f`: `Ok`, `Err((max_n, max_val))`,
or a panic (`zero_failed` or `Option::unwrap` on `None`). -/
inductive FResult where
  | ok : Nat → FResult
  | err : Nat → Nat → FResult
  | panicked : FResult
deriving DecidableEq, Repr

/-- `true` exactly on the panic outcome. -/
def FResult.isPanicked : FResult → Bool
  | .panicked => true
  | _ => false

/-- `Result::ok()`: the success value, if any. -/
def FResult.okValue : FResult → Option Nat
  | .ok v => some v
  | _ => none

namespace Fibonacci

/-- The body of `Fibonacci::f` after `let mut iter = Self::default()`:
`rem` iterations of the counted loop `for i in 0..n` remain, `i` is the
loop counter, `last` the most recent `Some` stored by the loop, and one
final `iter.next()` runs after the loop. Panic sites (`zero_failed`, the
two `last.unwrap()` calls) produce `FResult.panicked`. -/
def fAux (cap : Nat) : Nat → Nat → Option Nat → Fibonacci → Nat → FResult
  | 0, _, last, iter, n =>
    match next cap iter with
    | (some v, _) => .ok v
    | (none, _) =>
      if n = 0 then .panicked
      else
        match last with
        | some l => .err (n - 1) l
        | none => .panicked
  | rem + 1, i, last, iter, n =>
    match next cap iter with
    | (some v, iter2) => fAux cap rem (i + 1) (some v) iter2 n
    | (none, _) =>
      if i = 0 then .panicked
      else
        match last with
        | some l => .err (i - 1) l
        | none => .panicked

/-- `Fibonacci::f(n)` over the type with capacity `cap`. -/
def f (cap n : Nat) : FResult := fAux cap n 0 none default n

end Fibonacci

/-! ### Basic facts about `fib` -/

theorem fib_zero : fib 0 = 0 := rfl

theorem fib_one : fib 1 = 1 := rfl

theorem fib_add_two (n : Nat) : fib (n + 2) = fib n + fib (n + 1) := rfl

theorem fib_le_succ (n : Nat) : fib n ≤ fib (n + 1) := by
  cases n with
  | zero => exact Nat.zero_le _
  | succ n => rw [fib_add_two]; exact Nat.le_add_left _ _

theorem fib_mono {m n : Nat} (h : m ≤ n) : fib m ≤ fib n := by
  induction n, h using Nat.le_induction with
  | base => exact Nat.le_refl _
  | succ n _ ih => exact Nat.le_trans ih (fib_le_succ n)

/-- If `cap` cannot hold `fib n`, there is a crossing point `m < n`:
`fib m` still fits but `fib (m+1)` does not. -/
theorem fib_crossing {cap n : Nat} (h : cap < fib n) :
    ∃ m, m < n ∧ fib m ≤ cap ∧ cap < fib (m + 1) := by
  induction n with
  | zero => exact absurd h (by simp [fib_zero])
  | succ n ih =>
    by_cases hn : fib n ≤ cap
    · exact ⟨n, Nat.lt_succ_self n, hn, h⟩
    · obtain ⟨m, hm, h1, h2⟩ := ih (Nat.lt_of_not_le hn)
      exact ⟨m, Nat.lt_succ_of_lt hm, h1, h2⟩

/-! ### One-step reduction of `next` on each shape of state -/

namespace Fibonacci

theorem next_fresh (cap : Nat) :
    next cap ⟨none, none⟩ = (some 0, ⟨some 0, checked_add cap 0 1⟩) := rfl

theorem next_some (cap p c : Nat) :
    next cap ⟨some p, some c⟩ = (some c, ⟨some c, checked_add cap c p⟩) := rfl

theorem next_exhausted (cap p : Nat) :
    next cap ⟨some p, none⟩ = (none, ⟨some p, none⟩) := rfl

theorem next_stateN (cap k : Nat) :
    next cap (stateN cap k) = (outN cap k, stateN cap (k + 1)) := rfl

/-- While `fib k` is representable, the `(k+1)`-th call emits `fib k` and
leaves the state holding the emitted term in `previous` and, in `current`,
the next term if it is representable, `none` otherwise. -/
theorem progress {cap : Nat} (k : Nat) (h : fib k ≤ cap) :
    outN cap k = some (fib k) ∧
    stateN cap (k + 1) =
      ⟨some (fib k), if fib (k + 1) ≤ cap then some (fib (k + 1)) else none⟩ := by
  induction k with
  | zero =>
    constructor
    · rfl
    · show (next cap default).2 = _
      simp only [default, next_fresh, checked_add]
      rfl
  | succ k ih =>
    have hk : fib k ≤ cap := Nat.le_trans (fib_le_succ k) h
    obtain ⟨_, hstate⟩ := ih hk
    rw [if_pos h] at hstate
    have hnext : next cap (stateN cap (k + 1)) =
        (some (fib (k + 1)), ⟨some (fib (k + 1)), checked_add cap (fib (k + 1)) (fib k)⟩) := by
      rw [hstate, next_some]
    constructor
    · show (next cap (stateN cap (k + 1))).1 = _
      rw [hnext]
    · show (next cap (stateN cap (k + 1))).2 = _
      rw [hnext, checked_add, fib_add_two, Nat.add_comm (fib k) (fib (k + 1))]

/-- Once the next term no longer fits, the generator is permanently
exhausted: from call `m+2` on, the state is frozen at
`⟨some (fib m), none⟩` and every call returns `none`. -/
theorem exhausted {cap m : Nat} (h1 : fib m ≤ cap) (h2 : cap < fib (m + 1)) :
    ∀ j, m + 1 ≤ j → stateN cap j = ⟨some (fib m), none⟩ ∧ outN cap j = none := by
  intro j hj
  induction j, hj using Nat.le_induction with
  | base =>
    have hstate := (progress m h1).2
    rw [if_neg (Nat.not_le_of_lt h2)] at hstate
    refine ⟨hstate, ?_⟩
    show (next cap (stateN cap (m + 1))).1 = none
    rw [hstate, next_exhausted]
  | succ j _ ih =>
    have hstate : stateN cap (j + 1) = ⟨some (fib m), none⟩ := by
      show (next cap (stateN cap j)).2 = _
      rw [ih.1, next_exhausted]
    refine ⟨hstate, ?_⟩
    show (next cap (stateN cap (j + 1))).1 = none
    rw [hstate, next_exhausted]

/-- Closed form for the generator's output sequence. -/
theorem outN_eq (cap k : Nat) :
    outN cap k = if fib k ≤ cap then some (fib k) else none := by
  by_cases h : fib k ≤ cap
  · rw [if_pos h]; exact (progress k h).1
  · rw [if_neg h]
    obtain ⟨m, hm, h1, h2⟩ := fib_crossing (Nat.lt_of_not_le h)
    exact (exhausted h1 h2 k hm).2

theorem outN_zero (cap : Nat) : outN cap 0 = some 0 := rfl

/-! ### Reduction lemmas for the loop body of `f` -/

theorem fAux_zero_some {cap : Nat} {iter iter2 : Fibonacci} {v : Nat}
    (i : Nat) (last : Option Nat) (n : Nat)
    (h : next cap iter = (some v, iter2)) :
    fAux cap 0 i last iter n = .ok v := by
  simp only [fAux, h]

theorem fAux_zero_none {cap : Nat} {iter iter2 : Fibonacci} {l : Nat}
    (i n : Nat) (h : next cap iter = (none, iter2)) (hn : n ≠ 0) :
    fAux cap 0 i (some l) iter n = .err (n - 1) l := by
  simp only [fAux, h, if_neg hn]

theorem fAux_succ_some {cap : Nat} {iter iter2 : Fibonacci} {v : Nat}
    (rem i : Nat) (last : Option Nat) (n : Nat)
    (h : next cap iter = (some v, iter2)) :
    fAux cap (rem + 1) i last iter n = fAux cap rem (i + 1) (some v) iter2 n := by
  simp only [fAux, h]

theorem fAux_succ_none {cap : Nat} {iter iter2 : Fibonacci} {l : Nat}
    (rem i n : Nat) (h : next cap iter = (none, iter2)) (hi : i ≠ 0) :
    fAux cap (rem + 1) i (some l) iter n = .err (i - 1) l := by
  simp only [fAux, h, if_neg hi]

/-! ### Correctness of `f` -/

theorem fAux_ok {cap : Nat} :
    ∀ rem i (last : Option Nat) n, n = i + rem → fib n ≤ cap →
      fAux cap rem i last (stateN cap i) n = .ok (fib n) := by
  intro rem
  induction rem with
  | zero =>
    intro i last n hn h
    have hni : n = i := by omega
    subst hni
    exact fAux_zero_some n last _ (by rw [next_stateN, (progress n h).1])
  | succ rem ih =>
    intro i last n hn h
    have hi : fib i ≤ cap :=
      Nat.le_trans (fib_mono (by omega : i ≤ n)) h
    rw [fAux_succ_some rem i last n (by rw [next_stateN, (progress i hi).1])]
    exact ih (i + 1) (some (fib i)) n (by omega) h

/-- `f(n) = Ok (fib n)` whenever `fib n` is representable. -/
theorem f_ok {cap n : Nat} (h : fib n ≤ cap) : f cap n = .ok (fib n) :=
  fAux_ok n 0 none n (by omega) h

theorem fAux_err {cap m : Nat} (h1 : fib m ≤ cap) (h2 : cap < fib (m + 1)) :
    ∀ rem i (last : Option Nat) n, n = i + rem → m < n → i ≤ m + 1 →
      last = (if i = 0 then none else some (fib (i - 1))) →
      fAux cap rem i last (stateN cap i) n = .err m (fib m) := by
  intro rem
  induction rem with
  | zero =>
    intro i last n hn hmn hi hlast
    have hieq : i = m + 1 := by omega
    subst hieq
    have hneq : n = m + 1 := by omega
    subst hneq
    rw [if_neg (by omega : ¬ m + 1 = 0), show m + 1 - 1 = m from rfl] at hlast
    subst hlast
    have hout : next cap (stateN cap (m + 1)) = (none, stateN cap (m + 2)) := by
      rw [next_stateN, (exhausted h1 h2 (m + 1) (Nat.le_refl _)).2]
    exact fAux_zero_none (m + 1) (m + 1) hout (by omega)
  | succ rem ih =>
    intro i last n hn hmn hi hlast
    by_cases him : i ≤ m
    · have hfi : fib i ≤ cap := Nat.le_trans (fib_mono him) h1
      rw [fAux_succ_some rem i last n (by rw [next_stateN, (progress i hfi).1])]
      exact ih (i + 1) (some (fib i)) n (by omega) hmn (by omega)
        (by rw [if_neg (by omega : ¬ i + 1 = 0), Nat.add_sub_cancel])
    · have hieq : i = m + 1 := by omega
      subst hieq
      rw [if_neg (by omega : ¬ m + 1 = 0), show m + 1 - 1 = m from rfl] at hlast
      subst hlast
      have hout : next cap (stateN cap (m + 1)) = (none, stateN cap (m + 2)) := by
        rw [next_stateN, (exhausted h1 h2 (m + 1) (Nat.le_refl _)).2]
      exact fAux_succ_none rem (m + 1) n hout (by omega)

/-- `f(n) = Err (m, fib m)` for every `n` beyond the overflow threshold
`m`. -/
theorem f_err {cap m n : Nat} (h1 : fib m ≤ cap) (h2 : cap < fib (m + 1))
    (h3 : m < n) : f cap n = .err m (fib m) :=
  fAux_err h1 h2 n 0 none n (by omega) h3 (by omega) (by rw [if_pos rfl])

/-- `f` always returns `Ok` or `Err`, never a panic. -/
theorem f_total (cap n : Nat) :
    f cap n = .ok (fib n) ∨
      ∃ m, m < n ∧ fib m ≤ cap ∧ cap < fib (m + 1) ∧ f cap n = .err m (fib m) := by
  by_cases h : fib n ≤ cap
  · exact Or.inl (f_ok h)
  · obtain ⟨m, hm, h1, h2⟩ := fib_crossing (Nat.lt_of_not_le h)
    exact Or.inr ⟨m, hm, h1, h2, f_err h1 h2 hm⟩

end Fibonacci

/-! ### Loop-counter arithmetic of `f` under `usize` semantics

`f`'s loop `for i in 0..n` runs on a 64-bit host, where the range iterator
increments the counter with `usize` addition; `fAuxChecked` re-runs the
loop with every counter increment checked against `usize::MAX`, reporting
`none` if an increment would overflow (a Rust panic in debug mode,
wraparound in release — either way a bug `f` must avoid). -/

/-- `usize::MAX` on a 64-bit host. -/
def USIZE_MAX : Nat := 2 ^ 64 - 1

/-- A `usize` counter increment, failing on overflow. -/
def checkedSucc (i : Nat) : Option Nat :=
  if i + 1 ≤ USIZE_MAX then some (i + 1) else none

namespace Fibonacci

/-- `fAux` with the loop-counter increment performed as a checked `usize`
operation: `none` signals that the loop counter itself overflowed. -/
def fAuxChecked (cap : Nat) : Nat → Nat → Option Nat → Fibonacci → Nat → Option FResult
  | 0, _, last, iter, n =>
    match next cap iter with
    | (some v, _) => some (.ok v)
    | (none, _) =>
      if n = 0 then some .panicked
      else
        match last with
        | some l => some (.err (n - 1) l)
        | none => some .panicked
  | rem + 1, i, last, iter, n =>
    match next cap iter with
    | (some v, iter2) =>
      match checkedSucc i with
      | some i2 => fAuxChecked cap rem i2 (some v) iter2 n
      | none => none
    | (none, _) =>
      if i = 0 then some .panicked
      else
        match last with
        | some l => some (.err (i - 1) l)
        | none => some .panicked

/-- `f` with checked loop-counter arithmetic. -/
def fChecked (cap n : Nat) : Option FResult := fAuxChecked cap n 0 none default n

/-- The number of iterations of the counted loop `for i in 0..n` that `f`
actually executes (each iteration makes one `next` call; one further
`next` call happens after the loop). -/
def fItersAux (cap : Nat) : Nat → Fibonacci → Nat
  | 0, _ => 0
  | rem + 1, iter =>
    match next cap iter with
    | (some _, iter2) => fItersAux cap rem iter2 + 1
    | (none, _) => 1

/-- The loop-iteration count of `f cap n`. -/
def fIters (cap n : Nat) : Nat := fItersAux cap n default

theorem fAuxChecked_eq {cap : Nat} :
    ∀ rem i (last : Option Nat) iter n, n = i + rem → n ≤ USIZE_MAX →
      fAuxChecked cap rem i last iter n = some (fAux cap rem i last iter n) := by
  intro rem
  induction rem with
  | zero =>
    intro i last iter n _ _
    simp only [fAuxChecked, fAux]
    rcases next cap iter with ⟨o, iter2⟩
    cases o <;> simp only []
    split
    · rfl
    · cases last <;> rfl
  | succ rem ih =>
    intro i last iter n hn hle
    simp only [fAuxChecked, fAux]
    rcases hx : next cap iter with ⟨o, iter2⟩
    cases o with
    | some v =>
      have hsucc : checkedSucc i = some (i + 1) :=
        if_pos (by unfold USIZE_MAX at hle ⊢; omega)
      simp only [hsucc]
      exact ih (i + 1) (some v) iter2 n (by omega) hle
    | none =>
      simp only []
      split
      · rfl
      · cases last <;> rfl

theorem fChecked_eq {cap n : Nat} (h : n ≤ USIZE_MAX) :
    fChecked cap n = some (f cap n) :=
  fAuxChecked_eq n 0 none default n (by omega) h

theorem fItersAux_le (cap : Nat) :
    ∀ rem iter, fItersAux cap rem iter ≤ rem := by
  intro rem
  induction rem with
  | zero => intro iter; exact Nat.le_refl 0
  | succ rem ih =>
    intro iter
    simp only [fItersAux]
    rcases next cap iter with ⟨o, iter2⟩
    cases o
    · exact Nat.le_add_left 1 rem
    · exact Nat.succ_le_succ (ih iter2)

theorem fIters_le (cap n : Nat) : fIters cap n ≤ n :=
  fItersAux_le cap n default

/-! ### Exhaustion is the only way `next` returns `none` -/

theorem next_overflowed {cap : Nat} {s : Fibonacci} (h : s.has_overflowed = true) :
    next cap s = (none, s) := by
  simp [next, h]

theorem next_none_iff (cap : Nat) (s : Fibonacci) :
    (next cap s).1 = none ↔ s.has_overflowed = true := by
  by_cases h : s.has_overflowed = true
  · simp [next_overflowed h, h]
  · simp [next, h]

theorem stateFrom_of_overflowed {cap : Nat} {s : Fibonacci}
    (h : s.has_overflowed = true) : ∀ k, stateFrom cap s k = s := by
  intro k
  induction k with
  | zero => rfl
  | succ k ih =>
    show (next cap (stateFrom cap s k)).2 = s
    rw [ih, next_overflowed h]

theorem stateN_zero (cap : Nat) : stateN cap 0 = ⟨none, none⟩ := rfl

end Fibonacci

/-! ## The claims -/

open Fibonacci in
/-- C1: for every numeric type (capacity `cap`) and every index `n` whose
Fibonacci value is representable, `f n` returns `Ok` of exactly the n-th
term of the standard sequence; in particular `f 0 = Ok zero`,
`f 1 = Ok one`, `f 2 = Ok one` and `f 3 = Ok (one + one)`. -/
theorem claim_C1_f_returns_fib : ∀ cap n : Nat,
    (fib n ≤ cap → Fibonacci.f cap n = .ok (fib n)) ∧
    Fibonacci.f cap 0 = .ok 0 ∧
    (1 ≤ cap → Fibonacci.f cap 1 = .ok 1 ∧ Fibonacci.f cap 2 = .ok 1) ∧
    (2 ≤ cap → Fibonacci.f cap 3 = .ok (1 + 1)) := by
  intro cap n
  refine ⟨fun h => f_ok h, f_ok (by simp [fib_zero]), fun h1 => ⟨?_, ?_⟩, fun h2 => ?_⟩
  · exact f_ok (show fib 1 ≤ cap from h1)
  · exact f_ok (show fib 2 ≤ cap from h1)
  · exact f_ok (show fib 3 ≤ cap from h2)

/-- Witness for C1 at `cap = 2`, `n = 3`. -/
theorem claim_C1_witness :
    Fibonacci.f 2 3 = .ok (fib 3) ∧ Fibonacci.f 2 0 = .ok 0 ∧
      (Fibonacci.f 2 1 = .ok 1 ∧ Fibonacci.f 2 2 = .ok 1) ∧
      Fibonacci.f 2 3 = .ok (1 + 1) :=
  ⟨(claim_C1_f_returns_fib 2 3).1 (by decide), (claim_C1_f_returns_fib 2 3).2.1,
    (claim_C1_f_returns_fib 2 3).2.2.1 (by decide),
    (claim_C1_f_returns_fib 2 3).2.2.2 (by decide)⟩

open Fibonacci in
/-- C2: for a type with overflow threshold `m` (so `fib m` fits but
`fib (m+1)` does not), every `f n` with `n > m` returns the identical
failure `Err (m, fib m)` — and a `Result`, never a panic. -/
theorem claim_C2_saturating_err : ∀ cap m n : Nat,
    fib m ≤ cap → cap < fib (m + 1) → m < n →
      Fibonacci.f cap n = .err m (fib m) ∧
      (Fibonacci.f cap n).isPanicked = false := by
  intro cap m n h1 h2 h3
  refine ⟨f_err h1 h2 h3, ?_⟩
  rw [f_err h1 h2 h3]
  rfl

/-- Witness for C2 at the 8-bit type (`cap = 255`, `m = 13`) with
`n = usize::MAX`. -/
theorem claim_C2_witness :
    Fibonacci.f 255 USIZE_MAX = .err 13 (fib 13) ∧
      (Fibonacci.f 255 USIZE_MAX).isPanicked = false :=
  claim_C2_saturating_err 255 13 USIZE_MAX (by decide) (by decide) (by decide)

open Fibonacci in
/-- C3: a fresh generator emits the Fibonacci terms in order, one per
call, never emits a value that does not fit, stops exactly one call after
the last representable term, and for the 8-bit type emits exactly the 14
values `0,1,1,2,3,5,8,13,21,34,55,89,144,233` before terminating. -/
theorem claim_C3_iterator_emits_fib :
    (∀ cap k v : Nat, Fibonacci.outN cap k = some v → v = fib k ∧ v ≤ cap) ∧
    (∀ cap m : Nat, fib m ≤ cap → cap < fib (m + 1) →
      (∀ k, k ≤ m → Fibonacci.outN cap k = some (fib k)) ∧
        Fibonacci.outN cap (m + 1) = none) ∧
    (∀ j : Nat, Fibonacci.outN 255 j = if j ≤ 13 then some (fib j) else none) ∧
    Fibonacci.outputs 255 15 =
      [some 0, some 1, some 1, some 2, some 3, some 5, some 8, some 13,
       some 21, some 34, some 55, some 89, some 144, some 233, none] := by
  refine ⟨?_, ?_, ?_, by decide⟩
  · intro cap k v h
    rw [outN_eq] at h
    by_cases hk : fib k ≤ cap
    · rw [if_pos hk] at h
      cases h
      exact ⟨rfl, hk⟩
    · rw [if_neg hk] at h
      cases h
  · intro cap m h1 h2
    refine ⟨fun k hk => ?_, (exhausted h1 h2 (m + 1) (Nat.le_refl _)).2⟩
    rw [outN_eq, if_pos (Nat.le_trans (fib_mono hk) h1)]
  · intro j
    rw [outN_eq]
    by_cases hj : j ≤ 13
    · rw [if_pos (Nat.le_trans (fib_mono hj) (by decide : fib 13 ≤ 255)), if_pos hj]
    · have h377 : 377 ≤ fib j :=
        Nat.le_trans (by decide : (377 : Nat) ≤ fib 14) (fib_mono (by omega : 14 ≤ j))
      rw [if_neg (by omega), if_neg hj]

/-- Witness for C3: the 4th call on a fresh 8-bit generator emits 2, and
the 8-bit generator is still live at call 14 and exhausted at call 15. -/
theorem claim_C3_witness :
    (2 = fib 3 ∧ 2 ≤ 255) ∧
      (Fibonacci.outN 255 13 = some (fib 13) ∧ Fibonacci.outN 255 14 = none) :=
  ⟨claim_C3_iterator_emits_fib.1 255 3 2 (by decide),
    (claim_C3_iterator_emits_fib.2.1 255 13 (by decide) (by decide)).1 13 (Nat.le_refl _),
    (claim_C3_iterator_emits_fib.2.1 255 13 (by decide) (by decide)).2⟩

open Fibonacci in
/-- C4: the one-shot accessor and the producer agree: whenever the last of
`n+1` calls to `next` on a fresh generator yields a value, `f(n).ok()`
equals that value. -/
theorem claim_C4_f_agrees_with_iterator : ∀ cap n v : Nat,
    Fibonacci.outN cap n = some v → (Fibonacci.f cap n).okValue = some v := by
  intro cap n v h
  rw [outN_eq] at h
  by_cases hn : fib n ≤ cap
  · rw [if_pos hn] at h
    cases h
    rw [f_ok hn]
    rfl
  · rw [if_neg hn] at h
    cases h

/-- Witness for C4 at `cap = 255`, `n = 9`. -/
theorem claim_C4_witness : (Fibonacci.f 255 9).okValue = some 34 :=
  claim_C4_f_agrees_with_iterator 255 9 34 (by decide)

open Fibonacci in
/-- C5: fused termination: once a `next` call returns `None`, every later
`next` call on that instance returns `None`, and a call in the exhausted
state `(Some p, None)` returns `None` and leaves the state unchanged. -/
theorem claim_C5_fused_termination : ∀ (cap : Nat) (s : Fibonacci) (k p : Nat),
    ((Fibonacci.next cap s).1 = none →
      Fibonacci.stateFrom cap s k = s ∧
        (Fibonacci.next cap (Fibonacci.stateFrom cap s k)).1 = none) ∧
    Fibonacci.next cap ⟨some p, none⟩ = (none, ⟨some p, none⟩) := by
  intro cap s k p
  refine ⟨fun h => ?_, next_exhausted cap p⟩
  have hov := (next_none_iff cap s).1 h
  refine ⟨stateFrom_of_overflowed hov k, ?_⟩
  rw [stateFrom_of_overflowed hov k]
  exact h

/-- Witness for C5 on the exhausted 8-bit state `(Some 233, None)` after
five further calls. -/
theorem claim_C5_witness :
    (Fibonacci.stateFrom 255 ⟨some 233, none⟩ 5 = ⟨some 233, none⟩ ∧
      (Fibonacci.next 255 (Fibonacci.stateFrom 255 ⟨some 233, none⟩ 5)).1 = none) ∧
    Fibonacci.next 255 ⟨some 233, none⟩ = (none, ⟨some 233, none⟩) :=
  ⟨(claim_C5_fused_termination 255 ⟨some 233, none⟩ 5 233).1 (by decide),
    (claim_C5_fused_termination 255 ⟨some 233, none⟩ 5 233).2⟩

/-- C6 counterexample: after one call on a fresh 8-bit generator the state
is `(Some 0, Some 1)` and the term just emitted is `0`, so the `current`
field (`Some 1`) does not equal the most recently emitted term
(`Some 0`): the spec's reading of `current` is false on the code. -/
theorem claim_C6_counterexample :
    Fibonacci.stateN 255 1 = ⟨some 0, some 1⟩ ∧
    Fibonacci.outN 255 0 = some 0 ∧
    ((Fibonacci.stateN 255 1).current == Fibonacci.outN 255 0) = false := by
  decide

open Fibonacci in
/-- C6 (amended): in every reachable state just after a successful call,
`previous` holds the term most recently emitted, `current` (when present)
holds the representable term the next call will emit, and every stored
value is exactly representable — no wrapped-around value is ever
stored. -/
theorem claim_C6_state_invariant : ∀ cap k v : Nat,
    Fibonacci.outN cap k = some v →
      (Fibonacci.stateN cap (k + 1)).previous = some v ∧ v ≤ cap ∧
      (∀ c, (Fibonacci.stateN cap (k + 1)).current = some c →
        c ≤ cap ∧ Fibonacci.outN cap (k + 1) = some c) := by
  intro cap k v h
  rw [outN_eq] at h
  by_cases hk : fib k ≤ cap
  · rw [if_pos hk] at h
    cases h
    have hstate := (progress k hk).2
    refine ⟨by rw [hstate], hk, fun c hc => ?_⟩
    rw [hstate] at hc
    by_cases hk1 : fib (k + 1) ≤ cap
    · rw [if_pos hk1] at hc
      cases hc
      exact ⟨hk1, by rw [outN_eq, if_pos hk1]⟩
    · rw [if_neg hk1] at hc
      cases hc
  · rw [if_neg hk] at h
    cases h

/-- Witness for C6 (amended) at `cap = 255`, `k = 0`. -/
theorem claim_C6_witness :
    (Fibonacci.stateN 255 1).previous = some 0 ∧
      (1 ≤ 255 ∧ Fibonacci.outN 255 1 = some 1) :=
  ⟨(claim_C6_state_invariant 255 0 0 (by decide)).1,
    (claim_C6_state_invariant 255 0 0 (by decide)).2.2 1 (by decide)⟩

/-- C7: concrete boundaries: for the 8-bit unsigned type
`f 13 = Ok 233`, `f 14 = Err (13, 233)` and `f usize::MAX = Err (13, 233)`;
for the 64-bit unsigned type `f 93 = Ok 12200160415121876738` and
`f 94 = Err (93, 12200160415121876738)`. -/
theorem claim_C7_concrete_boundaries :
    Fibonacci.f 255 13 = .ok 233 ∧
    Fibonacci.f 255 14 = .err 13 233 ∧
    Fibonacci.f 255 USIZE_MAX = .err 13 233 ∧
    Fibonacci.f 18446744073709551615 93 = .ok 12200160415121876738 ∧
    Fibonacci.f 18446744073709551615 94 = .err 93 12200160415121876738 := by
  refine ⟨by decide, by decide, by decide, by decide, by decide⟩

open Fibonacci in
/-- C8: `f n` is well-defined for every `n` up to `usize::MAX`: the
counted loop executes at most `n` iterations and no loop-counter
increment ever exceeds `usize::MAX`, so running the loop with checked
`usize` counter arithmetic gives the same result as `f`. -/
theorem claim_C8_no_counter_overflow : ∀ cap n : Nat, n ≤ USIZE_MAX →
    Fibonacci.fChecked cap n = some (Fibonacci.f cap n) ∧
      Fibonacci.fIters cap n ≤ n :=
  fun cap n h => ⟨fChecked_eq h, fIters_le cap n⟩

/-- Witness for C8 at `cap = 255`, `n = usize::MAX`. -/
theorem claim_C8_witness :
    Fibonacci.fChecked 255 USIZE_MAX = some (Fibonacci.f 255 USIZE_MAX) ∧
      Fibonacci.fIters 255 USIZE_MAX ≤ USIZE_MAX :=
  claim_C8_no_counter_overflow 255 USIZE_MAX (Nat.le_refl _)

open Fibonacci in
/-- C9: every reachable generator state is fresh `(None, None)`,
producing `(Some p, Some c)` with `p` the term most recently returned and
`c` the representable term the next successful call returns, or exhausted
`(Some p, None)` with `p` the last term emitted before the overflow;
`(None, Some _)` is never reachable, and on reachable states
`has_overflowed` holds exactly when the next call returns `None`. -/
theorem claim_C9_reachable_state_shapes : ∀ cap k : Nat,
    ((Fibonacci.stateN cap k).previous = none →
      Fibonacci.stateN cap k = ⟨none, none⟩) ∧
    (∀ p c, Fibonacci.stateN cap k = ⟨some p, some c⟩ →
      0 < k ∧ Fibonacci.outN cap (k - 1) = some p ∧
        Fibonacci.outN cap k = some c ∧ c ≤ cap) ∧
    (∀ p, Fibonacci.stateN cap k = ⟨some p, none⟩ →
      Fibonacci.outN cap k = none ∧
        ∃ j, j < k ∧ Fibonacci.outN cap j = some p ∧
          Fibonacci.outN cap (j + 1) = none) ∧
    (Fibonacci.has_overflowed (Fibonacci.stateN cap k) = true ↔
      Fibonacci.outN cap k = none) := by
  intro cap k
  have hiff : has_overflowed (stateN cap k) = true ↔ outN cap k = none :=
    (next_none_iff cap (stateN cap k)).symm
  cases k with
  | zero =>
    refine ⟨fun _ => rfl, fun p c h => ?_, fun p h => ?_, hiff⟩
    · rw [stateN_zero] at h
      injection h with h1 _
      cases h1
    · rw [stateN_zero] at h
      injection h with h1 _
      cases h1
  | succ k =>
    by_cases hf : fib (k + 1) ≤ cap
    · have hk : fib k ≤ cap := Nat.le_trans (fib_le_succ k) hf
      have hstate := (progress k hk).2
      rw [if_pos hf] at hstate
      refine ⟨fun h => ?_, fun p c h => ?_, fun p h => ?_, hiff⟩
      · rw [hstate] at h
        cases h
      · rw [hstate] at h
        injection h with h1 h2
        injection h1 with h1
        injection h2 with h2
        subst h1
        subst h2
        refine ⟨Nat.succ_pos k, ?_, ?_, hf⟩
        · rw [Nat.add_sub_cancel]
          exact (progress k hk).1
        · rw [outN_eq, if_pos hf]
      · rw [hstate] at h
        injection h with _ h2
        cases h2
    · obtain ⟨m, hm, h1, h2⟩ := fib_crossing (Nat.lt_of_not_le hf)
      have hstate := (exhausted h1 h2 (k + 1) hm).1
      have hout := (exhausted h1 h2 (k + 1) hm).2
      refine ⟨fun h => ?_, fun p c h => ?_, fun p h => ?_, hiff⟩
      · rw [hstate] at h
        cases h
      · rw [hstate] at h
        injection h with _ h2'
        cases h2'
      · rw [hstate] at h
        injection h with h1' _
        injection h1' with h1'
        subst h1'
        exact ⟨hout, m, hm, (progress m h1).1,
          (exhausted h1 h2 (m + 1) (Nat.le_refl _)).2⟩

/-- Witness for C9: the fresh state at `k = 0` and the producing state at
`k = 2` on the 8-bit type. -/
theorem claim_C9_witness :
    Fibonacci.stateN 255 0 = ⟨none, none⟩ ∧
      (0 < 2 ∧ Fibonacci.outN 255 1 = some 1 ∧
        Fibonacci.outN 255 2 = some 1 ∧ 1 ≤ 255) :=
  ⟨(claim_C9_reachable_state_shapes 255 0).1 rfl,
    (claim_C9_reachable_state_shapes 255 2).2.1 1 1 (by decide)⟩

open Fibonacci in
/-- C10: the first call to `next` on a default generator always returns
`Some zero`, and `f` never panics: neither the `zero_failed` branch nor
either `last.unwrap()` is ever reached. -/
theorem claim_C10_f_never_panics : ∀ cap n : Nat,
    Fibonacci.outN cap 0 = some 0 ∧
      (Fibonacci.f cap n).isPanicked = false := by
  intro cap n
  refine ⟨outN_zero cap, ?_⟩
  rcases f_total cap n with h | ⟨m, _, _, _, h⟩
  · rw [h]
    rfl
  · rw [h]
    rfl
